import Mathlib

/-!  Verification of the definition-list plugin core.

This file gives a shallow embedding of the plugin's core algorithms:

* the block-boundary scanner and line-role decorator of
  `decorateVisibleRangesFromScratch`,
* the incremental updater `adjustDecorationsAfterEdit`,
* the syntax-oracle line classifier `lineType`,
* the static structural splitter of `postProcessDefinitionLists`
  (`insertClonedNode` and the list-item absorption path),

and proves theorems about them.  Text is modelled as `List Char`,
documents as lists of lines, machine integers as `Nat`. -/

/- Wire-format constants. -/

def MARKER : String := ":   "

def MARKERL : List Char := MARKER.data

def MARKER_LEN : Nat := MARKER.length

def MAX_TERM_LEN : Nat := 100

def TERM_CLASS : String := "view-dt"

def DEF_CLASS : String := "view-dd"

def DD_LIST_CLASS : String := "view-dd-li"

def MARKER_CLASS : String := "view-dd-marker"

/-- The line classifications produced by the syntax oracle
(type alias `lineType` in the source). -/
inductive LType where
  | blockStart
  | blockEnd
  | block
  | contiguousBlock
  | listItem
  | normal
deriving DecidableEq, Repr

/-- One line of a scanned document: its oracle classification
(`none` models the classifier falling through without a result)
and its text. -/
structure LineIn where
  ltype : Option LType
  text : List Char
deriving DecidableEq, Repr

/-- The `blockOfLines` record of the source. -/
structure blockOfLines where
  firstLine : Nat
  special : Bool
  defMarkers : List Nat
  listLines : List Nat
deriving DecidableEq, Repr

instance : Inhabited blockOfLines := ⟨⟨0, false, [], []⟩⟩

/-- Scanner state: the growing `lineBlocks` array and the
`inContiguousBlock` flag of `decorateVisibleRangesFromScratch`. -/
structure ScanState where
  blocks : List blockOfLines
  inContiguousBlock : Bool
deriving DecidableEq, Repr

/-- Apply `f` to the last element of a list (the mutation of
`currentBlock`, which is always the last pushed block). -/
def modifyLast (f : blockOfLines → blockOfLines) : List blockOfLines → List blockOfLines
  | [] => []
  | [b] => [f b]
  | b :: b2 :: rest => b :: modifyLast f (b2 :: rest)

/-- The current (last) block of the scanner. -/
def curBlock (st : ScanState) : blockOfLines := (st.blocks.getLast?).getD default

def markSpecial (b : blockOfLines) : blockOfLines := { b with special := true }

/-- One iteration of the scanner's per-line `switch` statement. -/
def scanStep (lnr : Nat) (l : LineIn) (st : ScanState) : ScanState :=
  match l.ltype with
  | some LType.blockStart =>
      if (curBlock st).firstLine ≠ lnr then
        { st with blocks := st.blocks ++ [⟨lnr, true, [], []⟩] }
      else
        { st with blocks := modifyLast markSpecial st.blocks }
  | some LType.blockEnd =>
      { st with blocks := modifyLast markSpecial st.blocks ++ [⟨lnr + 1, false, [], []⟩] }
  | some LType.block =>
      { st with blocks := modifyLast markSpecial st.blocks }
  | some LType.contiguousBlock =>
      if st.inContiguousBlock then st
      else if (curBlock st).firstLine ≠ lnr then
        { blocks := st.blocks ++ [⟨lnr, true, [], []⟩], inContiguousBlock := true }
      else
        { blocks := modifyLast markSpecial st.blocks, inContiguousBlock := true }
  | some LType.normal | some LType.listItem =>
      let st1 :=
        if st.inContiguousBlock ∨ ((curBlock st).special = false ∧ l.text.length = 0) then
          if (curBlock st).firstLine ≠ lnr then
            { blocks := st.blocks ++ [⟨lnr, false, [], []⟩], inContiguousBlock := false }
          else
            { st with inContiguousBlock := false }
        else st
      if MARKERL.isPrefixOf l.text then
        { st1 with blocks :=
            modifyLast (fun b => { b with defMarkers := b.defMarkers ++ [lnr] }) st1.blocks }
      else if l.ltype = some LType.listItem then
        { st1 with blocks :=
            modifyLast (fun b => { b with listLines := b.listLines ++ [lnr] }) st1.blocks }
      else st1
  | none => st

/-- Scan a run of consecutive lines, the first having number `lnr`. -/
def scanLines : ScanState → Nat → List LineIn → ScanState
  | st, _, [] => st
  | st, lnr, l :: rest => scanLines (scanStep lnr l st) (lnr + 1) rest

/-- The per-range seeding: reuse the last known block, or (only when no
block exists yet) open a fresh non-special block at the range start. -/
def seedRange (st : ScanState) (a : Nat) : ScanState :=
  if st.blocks.isEmpty then ⟨[⟨a, false, [], []⟩], st.inContiguousBlock⟩ else st

/-- Scan one visible range of lines `a, a+1, …` from a given state. -/
def scanRange (st : ScanState) (a : Nat) (lines : List LineIn) : ScanState :=
  scanLines (seedRange st a) a lines

/-- Scan several consecutive visible ranges in document order,
each seeded from the state left by the previous one. -/
def scanParts : ScanState → Nat → List (List LineIn) → ScanState
  | st, _, [] => st
  | st, a, p :: ps => scanParts (scanRange st a p) (a + p.length) ps

/- Offsets.  Line `n` (1-based) starts at the sum of the earlier lines'
lengths plus one newline character per line. -/

def lineFrom (texts : List (List Char)) (n : Nat) : Nat :=
  ((texts.take (n - 1)).map (fun t => t.length + 1)).sum

def lineTextN (texts : List (List Char)) (n : Nat) : List Char :=
  texts.getD (n - 1) []

/-- A decoration: an offset range and a CSS class.  Line decorations
are anchored points (`dfrom = dto`); the marker decoration is a mark
over the marker's characters. -/
structure Deco where
  dfrom : Nat
  dto : Nat
  cls : String
deriving DecidableEq, Repr

/-- The decorations the from-scratch pass emits for line `n` of a
recognized definition-list block `b`. -/
def decorateLine (texts : List (List Char)) (b : blockOfLines) (n : Nat) : List Deco :=
  let t := lineTextN texts n
  let lf := lineFrom texts n
  if MARKERL.isPrefixOf t then
    [⟨lf, lf, DEF_CLASS⟩, ⟨lf, lf + MARKER_LEN, MARKER_CLASS⟩]
  else if b.listLines.contains n then
    [⟨lf, lf, DD_LIST_CLASS⟩]
  else if 0 < t.length ∧ t.length ≤ MAX_TERM_LEN then
    [⟨lf, lf, TERM_CLASS⟩]
  else []

/-- Decorations of one block: its lines run from `firstLine`
(inclusive) to `endline` (exclusive). -/
def decorateBlockLines (texts : List (List Char)) (b : blockOfLines) (endline : Nat) :
    List Deco :=
  ((List.range' b.firstLine (endline - b.firstLine)).map (decorateLine texts b)).flatten

/-- Pass 3 of `decorateVisibleRangesFromScratch`: skip special and
marker-free blocks, decorate each recognized block up to the next
block's `firstLine` (or `endLnr` for the last block). -/
def decorateFromBlocks (texts : List (List Char)) : List blockOfLines → Nat → List Deco
  | [], _ => []
  | b :: rest, endLnr =>
      (if b.special = true ∨ b.defMarkers = [] then []
       else decorateBlockLines texts b
         (match rest with | [] => endLnr | b2 :: _ => b2.firstLine))
        ++ decorateFromBlocks texts rest endLnr

def docTexts (doc : List LineIn) : List (List Char) := doc.map LineIn.text

/-- The live engine's per-document state. -/
structure EngineState where
  decorations : List Deco
  lineBlocks : List blockOfLines
  numberOfLines : Nat
deriving DecidableEq, Repr

/-- The whole from-scratch pass over a document scanned as one
visible range. -/
def decorateVisibleRangesFromScratch (doc : List LineIn) : EngineState :=
  let st := scanRange ⟨[], false⟩ 1 doc
  ⟨decorateFromBlocks (docTexts doc) st.blocks (doc.length + 1), st.blocks, doc.length⟩

/- The incremental updater. -/

/-- The document line containing an offset. -/
structure LineL where
  number : Nat
  lfrom : Nat
  text : List Char
deriving DecidableEq, Repr

def lineAtAux : List (List Char) → Nat → Nat → Nat → LineL
  | [], _, n, off => ⟨n, off, []⟩
  | t :: rest, pos, n, off =>
      if pos ≤ t.length then ⟨n, off, t⟩
      else lineAtAux rest (pos - (t.length + 1)) (n + 1) (off + t.length + 1)

def lineAt (texts : List (List Char)) (pos : Nat) : LineL :=
  lineAtAux texts pos 1 0

def lineTo (L : LineL) : Nat := L.lfrom + L.text.length

/-- One changed range of an edit: old range `[f0, t0)` replaced by new
range `[f1, t1)`. -/
structure EditRange where
  f0 : Nat
  t0 : Nat
  f1 : Nat
  t1 : Nat
deriving DecidableEq, Repr

/-- Remapping of an offset through the edit (the `.map` of the
decoration set). -/
def mapPos (e : EditRange) (p : Nat) : Nat :=
  if p ≤ e.f0 then p
  else if e.t0 ≤ p then p - e.t0 + e.t1
  else e.f1

def mapDec (e : EditRange) (d : Deco) : Deco :=
  ⟨mapPos e d.dfrom, mapPos e d.dto, d.cls⟩

/-- Does a decoration touch the filter window `[wf, wt]`? -/
def touches (d : Deco) (wf wt : Nat) : Bool :=
  decide (d.dfrom ≤ wt) && decide (wf ≤ d.dto)

/-- `RangeSet.update` with a filter window and added ranges: ranges in
the window failing `keep` are removed, `adds` are appended. -/
def decUpdate (decs : List Deco) (keep : Deco → Bool) (wf wt : Nat) (adds : List Deco) :
    List Deco :=
  decs.filter (fun d => !(touches d wf wt) || keep d) ++ adds

def backtick : Char := Char.ofNat 96

/-- The special-block-opening test of branch C
(regexp `^($$|` + three backticks + `|> )`). -/
def specialPat (s : List Char) : Bool :=
  match s with
  | '$' :: '$' :: _ => true
  | '>' :: ' ' :: _ => true
  | c1 :: c2 :: c3 :: _ => (c1 == backtick) && (c2 == backtick) && (c3 == backtick)
  | _ => false

def digitsDot : List Char → Bool
  | '.' :: ' ' :: _ => true
  | c :: rest => c.isDigit && digitsDot rest
  | [] => false

/-- The list-item test of the list branch (regexp for a bullet or a
numbered item at the line start). -/
def listPat (s : List Char) : Bool :=
  match s with
  | '*' :: ' ' :: _ => true
  | '-' :: ' ' :: _ => true
  | '+' :: ' ' :: _ => true
  | c :: rest => c.isDigit && digitsDot rest
  | [] => false

/-- The backward search for the block owning a line (last block whose
`firstLine` is at most `n`). -/
def lastIdxLE : List blockOfLines → Nat → Option Nat
  | [], _ => none
  | b :: rest, n =>
      match lastIdxLE rest n with
      | some i => some (i + 1)
      | none => if b.firstLine ≤ n then some 0 else none

/-- The independent list-item toggle patch at the end of the
incremental updater. -/
def adjustListBranch (st : EngineState) (line : LineL) (i : Nat) : EngineState :=
  let b := st.lineBlocks.getD i default
  if b.special = false ∧ (b.listLines.contains line.number = !(listPat line.text)) then
    if b.listLines.contains line.number = false then
      { st with
        lineBlocks := st.lineBlocks.set i { b with listLines := b.listLines ++ [line.number] },
        decorations := (decUpdate st.decorations (fun d => !(d.cls == TERM_CLASS))
          line.lfrom (lineTo line) [⟨line.lfrom, line.lfrom, DD_LIST_CLASS⟩]) }
    else
      { st with
        lineBlocks := st.lineBlocks.set i { b with listLines := b.listLines.erase line.number },
        decorations := (decUpdate st.decorations (fun d => !(d.cls == DD_LIST_CLASS))
          line.lfrom (lineTo line) [⟨line.lfrom, line.lfrom, TERM_CLASS⟩]) }
  else st

/-- `adjustDecorationsAfterEdit` for a single changed range.  Returns
the updated state and the `fullRedecorationRequired` flag, or `none`
where the source would fault (no block found for the edited line). -/
def adjustDecorationsAfterEdit (st : EngineState) (texts : List (List Char)) (e : EditRange) :
    Option (EngineState × Bool) :=
  let st0 : EngineState := { st with decorations := st.decorations.map (mapDec e) }
  if texts.length ≠ st.numberOfLines then
    some (st0, true)
  else
    let line := lineAt texts e.f1
    if line.lfrom + MARKER_LEN ≤ min e.f0 e.f1 then
      some (st0, false)
    else if line.text.length = e.t1 - e.f1 then
      some (st0, true)
    else
      match lastIdxLE st0.lineBlocks line.number with
      | none => none
      | some i =>
          let b := st0.lineBlocks.getD i default
          if b.special = !(specialPat line.text) then
            some (st0, true)
          else if b.special = false ∧
              ((b.defMarkers.contains line.number) ≠ (MARKERL.isPrefixOf line.text)) then
            if MARKERL.isPrefixOf line.text then
              let b1 := { b with defMarkers := b.defMarkers ++ [line.number] }
              let st1 := { st0 with lineBlocks := st0.lineBlocks.set i b1 }
              if b1.defMarkers.length = 1 then
                some (st1, true)
              else
                some (adjustListBranch
                  { st1 with decorations := (decUpdate st1.decorations
                      (fun d => !(d.cls == TERM_CLASS)) line.lfrom (lineTo line)
                      [⟨line.lfrom, line.lfrom, DEF_CLASS⟩,
                       ⟨line.lfrom, line.lfrom + MARKER_LEN, MARKER_CLASS⟩]) } line i, false)
            else
              let b1 := { b with defMarkers := b.defMarkers.erase line.number }
              let st1 := { st0 with lineBlocks := st0.lineBlocks.set i b1 }
              if b1.defMarkers = [] then
                some (st1, true)
              else
                some (adjustListBranch
                  { st1 with decorations := (decUpdate st1.decorations
                      (fun d => !((d.cls == MARKER_CLASS) || (d.cls == DEF_CLASS)))
                      line.lfrom (lineTo line)
                      [⟨line.lfrom, line.lfrom, TERM_CLASS⟩]) } line i, false)
          else
            some (adjustListBranch st0 line i, false)

/-- The end-to-end incremental update: apply the updater and, when it
demands a full redecoration, rerun the from-scratch pass. -/
def adjustAndRedecorate (st : EngineState) (doc : List LineIn) (e : EditRange) :
    Option EngineState :=
  match adjustDecorationsAfterEdit st (docTexts doc) e with
  | none => none
  | some (st2, flag) =>
      some (if flag then decorateVisibleRangesFromScratch doc else st2)

/-- The list of `firstLine` values of a block list. -/
def flist (bs : List blockOfLines) : List Nat := bs.map blockOfLines.firstLine

/-- The scanner invariant: at least one block, strictly increasing
`firstLine` values, the first block starting at the span start, the
last block starting no later than the next line to scan. -/
def BlocksInv (a m : Nat) (bs : List blockOfLines) : Prop :=
  bs ≠ [] ∧ (flist bs).Chain' (· < ·) ∧
    (flist bs).headD 0 = a ∧ (flist bs).getLastD 0 ≤ m

/- The syntax-oracle line classifier. -/

/-- A node of the resolved syntax-node stack. -/
structure SNode where
  name : String
  id : Nat
deriving DecidableEq, Repr

def stripDigits (s : String) : String :=
  String.mk (s.data.filter (fun c => !c.isDigit))

def BLOCK_START_TYPES : List String := [
  "HyperMD-codeblock_HyperMD-codeblock-begin_HyperMD-codeblock-begin-bg_HyperMD-codeblock-bg",
  "formatting_formatting-math_formatting-math-begin_keyword_math_math-block"]

def BLOCK_INNER_TYPES : List String := [
  "hmd-codeblock_variable", "hmd-codeblock_keyword", "math_variable-"]

def BLOCK_END_TYPES : List String := [
  "HyperMD-codeblock_HyperMD-codeblock-bg_HyperMD-codeblock-end_HyperMD-codeblock-end-bg",
  "formatting_formatting-math_formatting-math-end_keyword_math_math-"]

def CONTIGUOUS_BLOCK_TYPES : List String := [
  "HyperMD-header_HyperMD-header-", "HyperMD-quote_HyperMD-quote-",
  "HyperMD-table-_HyperMD-table-row_HyperMD-table-row-",
  "formatting_formatting-image_image_image-marker",
  "HyperMD-list-line_HyperMD-list-line-_HyperMD-task-line", "hr"]

def LIST_TYPES : List String := ["HyperMD-list-line_HyperMD-list-line-"]

/-- The `lineType` walk over the resolved node stack.  A node of type
id 1 yields `normal`; otherwise the digit-stripped name is looked up;
when the stack is exhausted the walk falls through with no result. -/
def lineType : List SNode → Option LType
  | [] => none
  | nd :: rest =>
      if nd.id = 1 then some LType.normal
      else
        if BLOCK_START_TYPES.contains (stripDigits nd.name) then some LType.blockStart
        else if BLOCK_INNER_TYPES.contains (stripDigits nd.name) then some LType.block
        else if BLOCK_END_TYPES.contains (stripDigits nd.name) then some LType.blockEnd
        else if CONTIGUOUS_BLOCK_TYPES.contains (stripDigits nd.name) then
          some LType.contiguousBlock
        else if LIST_TYPES.contains (stripDigits nd.name) then some LType.listItem
        else lineType rest

/- The static structural splitter. -/

/-- First index where `MARKER_REGEX` matches: position 0 when the text
starts with the marker, else the index of the first newline that is
immediately followed by the marker. -/
def nlMarkerIdx : List Char → Option Nat
  | [] => none
  | '\n' :: rest =>
      if MARKERL.isPrefixOf rest then some 0 else (nlMarkerIdx rest).map (· + 1)
  | _ :: rest => (nlMarkerIdx rest).map (· + 1)

def markerIdx (s : List Char) : Option Nat :=
  if MARKERL.isPrefixOf s then some 0 else nlMarkerIdx s

/-- An inline child node of a rendered run: a line break or a
text-bearing node (only `textContent` and the BR tag matter). -/
inductive INode where
  | br
  | txt (s : List Char)
deriving DecidableEq, Repr

/-- The containers the splitter creates per logical line. -/
inductive DKind where
  | dd
  | dt
  | p
deriving DecidableEq, Repr

structure DItem where
  kind : DKind
  content : List (List Char)
deriving DecidableEq, Repr

def appendContent (s : List Char) : List DItem → List DItem
  | [] => []
  | [it] => [{ it with content := it.content ++ [s] }]
  | it :: it2 :: rest => it :: appendContent s (it2 :: rest)

/-- Splitter state: the `startOfLine` flag and the items accumulated in
the `dl` element. -/
structure SplitState where
  startOfLine : Bool
  items : List DItem
deriving DecidableEq, Repr

/-- `insertClonedNode`: a BR starts a new logical line; at the start of
a logical line a marker match opens a `dd` whose clone text is the
node's text with its first 4 characters removed, a short line opens a
`dt`, a long line a `p`; later nodes are appended to the open item. -/
def insertClonedNode (st : SplitState) (node : INode) : SplitState :=
  match node with
  | INode.br => { st with startOfLine := true }
  | INode.txt s =>
      if st.startOfLine then
        if (markerIdx s).isSome then
          ⟨false, st.items ++ [⟨DKind.dd, [s.drop 4]⟩]⟩
        else if s.length ≤ MAX_TERM_LEN then
          ⟨false, st.items ++ [⟨DKind.dt, [s]⟩]⟩
        else
          ⟨false, st.items ++ [⟨DKind.p, [s]⟩]⟩
      else
        { st with items := appendContent s st.items }

def splitNodes (nodes : List INode) : List DItem :=
  (nodes.foldl insertClonedNode ⟨true, []⟩).items

/-- Parsing of an innerHTML string into child nodes: a BR tag becomes a
break node, the text between BR tags becomes text nodes (a newline
after a BR tag stays at the head of the following text node). -/
def parseHTMLAux : List Char → List Char → List INode
  | acc, [] => if acc.isEmpty then [] else [INode.txt acc.reverse]
  | acc, '<' :: 'b' :: 'r' :: '>' :: rest =>
      (if acc.isEmpty then [] else [INode.txt acc.reverse]) ++ INode.br :: parseHTMLAux [] rest
  | acc, c :: rest => parseHTMLAux (c :: acc) rest
termination_by _ s => s.length

def parseHTML (s : List Char) : List INode := parseHTMLAux [] s

inductive LKind where
  | ul
  | ol
deriving DecidableEq, Repr

/-- A sibling element in the rendered document: a list (with its items'
innerHTML strings), a definition list, or anything else. -/
inductive Element where
  | list (kind : LKind) (items : List (List Char))
  | dl (entries : List DItem)
  | other (html : List Char)
deriving DecidableEq, Repr

/-- The while loop that appends the following sibling items one by one
to the freshly cloned list. -/
def moveSiblings : List (List Char) → List (List Char) → List (List Char)
  | [], dst => dst
  | x :: rest, dst => moveSiblings rest (dst ++ [x])

/-- The list-item absorption path of `postProcessDefinitionLists` for
the marker-bearing item at index `k`: truncate the item's innerHTML at
the first marker match, insert after the list a `dl` built by the
logical-line splitter from the remainder, and, when the item has
following siblings, insert after the `dl` a clone of the list filled by
moving those siblings over. -/
def processLi (kind : LKind) (items : List (List Char)) (k : Nat) : List Element :=
  let html := items.getD k []
  match markerIdx html with
  | none => [Element.list kind items]
  | some idx =>
      let truncatedItems := items.set k (html.take idx)
      let defListEntries := splitNodes (parseHTML (html.drop (idx + 1)))
      let tail := truncatedItems.drop (k + 1)
      if tail.isEmpty then
        [Element.list kind truncatedItems, Element.dl defListEntries]
      else
        [Element.list kind (truncatedItems.take (k + 1)), Element.dl defListEntries,
         Element.list kind (moveSiblings tail [])]

/-- Modelled from the spec's words, for comparison with the engine's
marker test: a colon followed by exactly three spaces (a fourth space
makes it fail). -/
def specMarkerExactlyThree (s : List Char) : Bool :=
  match s with
  | ':' :: ' ' :: ' ' :: ' ' :: ' ' :: _ => false
  | ':' :: ' ' :: ' ' :: ' ' :: _ => true
  | _ => false

/-- Membership of a line in the extent of block `i` of a block list
(up to the next block's `firstLine`, or `endLnr` for the last block). -/
def inExtent (blocks : List blockOfLines) (endLnr i n : Nat) : Prop :=
  (blocks.getD i default).firstLine ≤ n ∧
    n < (if i + 1 < blocks.length then (blocks.getD (i + 1) default).firstLine else endLnr)

instance (blocks : List blockOfLines) (endLnr i n : Nat) :
    Decidable (inExtent blocks endLnr i n) := by
  unfold inExtent; infer_instance

/- Concrete documents used to instantiate theorems with hypotheses. -/

def mkNormal (s : String) : LineIn := ⟨some LType.normal, s.data⟩

def mkList (s : String) : LineIn := ⟨some LType.listItem, s.data⟩

/- ===================  Claims  =================== -/

/-- C2, counterexample: the line text `:` + four spaces + `x` starts
with the 4-character marker prefix, so the engine decorates it as a
definition-text line, although the spec-worded predicate (colon
followed by exactly three spaces) rejects it. -/
theorem C2_counterexample :
    specMarkerExactlyThree (":    x").data = false ∧
    MARKERL.isPrefixOf (":    x").data = true ∧
    decorateLine [(":    x").data] ⟨1, false, [1], []⟩ 1 =
      [⟨0, 0, DEF_CLASS⟩, ⟨0, 4, MARKER_CLASS⟩] := by
  decide

/-- C2, amended: the engine treats a line as a definition-text
(marker) line exactly when its text has the 4-character sequence
`:` + three spaces as a prefix; a colon with fewer than three spaces
never matches, but any longer run of spaces after the colon still
contains this prefix and does match. -/
theorem C2_marker_prefix_iff (texts : List (List Char)) (b : blockOfLines) (n : Nat) :
    (⟨lineFrom texts n, lineFrom texts n, DEF_CLASS⟩ : Deco) ∈ decorateLine texts b n ↔
      ∃ t, MARKERL ++ t = lineTextN texts n := by
  unfold decorateLine
  by_cases h : MARKERL.isPrefixOf (lineTextN texts n)
  · simp only [h, if_true]
    constructor
    · intro _
      exact List.isPrefixOf_iff_prefix.mp h
    · intro _
      simp
  · simp only [h, Bool.false_eq_true, if_false]
    constructor
    · intro hmem
      exfalso
      split at hmem
      · simp [DEF_CLASS, DD_LIST_CLASS] at hmem
      · split at hmem
        · simp [DEF_CLASS, TERM_CLASS] at hmem
        · simp at hmem
    · intro hpre
      exact absurd (List.isPrefixOf_iff_prefix.mpr hpre) h

/-- C9: on the text node that follows a line break, whose text is the
newline plus a marker-bearing line, the splitter removes the first
4 characters (the newline, the colon and two spaces) instead of the
marker's 4 characters, so the emitted `dd` keeps a stray leading
space: the input matches the marker pattern at index 0, yet the `dd`
text is a space + `ice` where stripping the marker would give `ice`. -/
theorem C9_slice4_stray_space :
    markerIdx ("\n:   ice").data = some 0 ∧
    splitNodes [INode.txt ("term").data, INode.br, INode.txt ("\n:   ice").data] =
      [⟨DKind.dt, [("term").data]⟩, ⟨DKind.dd, [(" ice").data]⟩] ∧
    (" ice").data ≠ ("\n:   ice").data.drop 5 ∧
    ("\n:   ice").data.drop 5 = ("ice").data := by
  decide

/-- C10, counterexample: a node stack in which no node carries a known
block or list type name and none has type id 1 makes the classifier
fall through with no result (`none`, not `normal`), and the scanner
then skips the line entirely: a marker-bearing line of that kind is
not tracked in the block's marker set, unlike an oracle-classified
normal line. -/
theorem C10_counterexample :
    lineType [⟨"mystery", 42⟩] ≠ some LType.normal ∧
    scanRange ⟨[], false⟩ 1 [⟨lineType [⟨"mystery", 42⟩], (":   x").data⟩] ≠
      scanRange ⟨[], false⟩ 1 [⟨some LType.normal, (":   x").data⟩] := by
  decide

/-- C10, amended: when no node of the stack carries a known block or
list type name, the classifier returns `normal` exactly when some node
has the ever-present root type id 1; when the stack is exhausted
without any match at all it returns no classification, and the scanner
treats such a line as a no-op (state unchanged, no error), rather than
as a normal line. -/
theorem C10_oracle_miss (stack : List SNode)
    (hmiss : ∀ nd ∈ stack,
      stripDigits nd.name ∉ BLOCK_START_TYPES ∧
      stripDigits nd.name ∉ BLOCK_INNER_TYPES ∧
      stripDigits nd.name ∉ BLOCK_END_TYPES ∧
      stripDigits nd.name ∉ CONTIGUOUS_BLOCK_TYPES ∧
      stripDigits nd.name ∉ LIST_TYPES) :
    lineType stack = (if stack.any (fun nd => nd.id == 1) then some LType.normal else none) ∧
    ∀ (lnr : Nat) (l : LineIn) (st : ScanState), l.ltype = none → scanStep lnr l st = st := by
  constructor
  · induction stack with
    | nil => simp [lineType]
    | cons nd rest ih =>
        obtain ⟨h1, h2, h3, h4, h5⟩ := hmiss nd (List.mem_cons_self nd rest)
        by_cases hid : nd.id = 1
        · simp [lineType, hid]
        · have := ih (fun x hx => hmiss x (List.mem_cons_of_mem nd hx))
          simp [lineType, hid, h1, h2, h3, h4, h5, this, List.any_cons]
  · intro lnr l st hl
    unfold scanStep
    rw [hl]

/-- C10, witness for the amended theorem: a stack holding only the
root node (type id 1) is classified `normal`; a stack holding only an
unknown node yields no classification. -/
theorem C10_oracle_miss_witness :
    ((∀ nd ∈ ([⟨"Document", 1⟩] : List SNode),
      stripDigits nd.name ∉ BLOCK_START_TYPES ∧
      stripDigits nd.name ∉ BLOCK_INNER_TYPES ∧
      stripDigits nd.name ∉ BLOCK_END_TYPES ∧
      stripDigits nd.name ∉ CONTIGUOUS_BLOCK_TYPES ∧
      stripDigits nd.name ∉ LIST_TYPES) ∧
    lineType [⟨"Document", 1⟩] =
      (if ([⟨"Document", 1⟩] : List SNode).any (fun nd => nd.id == 1)
       then some LType.normal else none)) ∧
    lineType [⟨"mystery", 42⟩] =
      (if ([⟨"mystery", 42⟩] : List SNode).any (fun nd => nd.id == 1)
       then some LType.normal else none) :=
  ⟨⟨by decide, (C10_oracle_miss [⟨"Document", 1⟩] (by decide)).1⟩,
    (C10_oracle_miss [⟨"mystery", 42⟩] (by decide)).1⟩

/-- C5: an edit that keeps the total line count and whose changed
range lies entirely at or beyond the 4-character marker zone of the
line holding it only shifts the previous decorations by the edit's
offset remap; no full rescan is requested. -/
theorem C5_offset_shift (st : EngineState) (texts : List (List Char)) (e : EditRange)
    (hlines : texts.length = st.numberOfLines)
    (hout : (lineAt texts e.f1).lfrom + MARKER_LEN ≤ min e.f0 e.f1) :
    adjustDecorationsAfterEdit st texts e =
      some ({ st with decorations := st.decorations.map (mapDec e) }, false) := by
  unfold adjustDecorationsAfterEdit
  rw [if_neg (by simp [hlines]), if_pos hout]

def docW5 : List LineIn := [mkNormal ("a"), mkNormal (":   b")]

def stW5 : EngineState := decorateVisibleRangesFromScratch docW5

def docW5b : List LineIn := [mkNormal ("a"), mkNormal (":   bx")]

/- Helper lemmas about the scanner state. -/

theorem modifyLast_ne_nil (f : blockOfLines → blockOfLines) (bs : List blockOfLines)
    (h : bs ≠ []) : modifyLast f bs ≠ [] := by
  cases bs with
  | nil => exact absurd rfl h
  | cons b rest => cases rest <;> simp [modifyLast]

theorem scanStep_blocks_ne (lnr : Nat) (l : LineIn) (st : ScanState)
    (h : st.blocks ≠ []) : (scanStep lnr l st).blocks ≠ [] := by
  unfold scanStep
  cases hl : l.ltype with
  | none => exact h
  | some lt =>
      have hst1 : ∀ s : ScanState, s.blocks ≠ [] →
          ∀ c : Prop, [inst : Decidable c] → ∀ x,
          (if c then { blocks := s.blocks ++ [x], inContiguousBlock := false }
           else { s with inContiguousBlock := false } : ScanState).blocks ≠ [] := by
        intro s hs c inst x
        split
        · simp
        · exact hs
      cases lt with
      | blockStart =>
          dsimp only
          split
          · simp
          · exact modifyLast_ne_nil _ _ h
      | blockEnd => simp
      | block => exact modifyLast_ne_nil _ _ h
      | contiguousBlock =>
          dsimp only
          split
          · exact h
          · split
            · simp
            · exact modifyLast_ne_nil _ _ h
      | normal =>
          dsimp only
          split
          · apply modifyLast_ne_nil
            split
            · exact hst1 st h _ _
            · exact h
          · split
            · apply modifyLast_ne_nil
              split
              · exact hst1 st h _ _
              · exact h
            · split
              · exact hst1 st h _ _
              · exact h
      | listItem =>
          dsimp only
          split
          · apply modifyLast_ne_nil
            split
            · exact hst1 st h _ _
            · exact h
          · split
            · apply modifyLast_ne_nil
              split
              · exact hst1 st h _ _
              · exact h
            · split
              · exact hst1 st h _ _
              · exact h

theorem scanLines_blocks_ne (lines : List LineIn) : ∀ (st : ScanState) (lnr : Nat),
    st.blocks ≠ [] → (scanLines st lnr lines).blocks ≠ [] := by
  induction lines with
  | nil => intro st lnr h; exact h
  | cons l rest ih => intro st lnr h; exact ih _ _ (scanStep_blocks_ne _ _ _ h)

theorem seedRange_blocks_ne (st : ScanState) (a : Nat) : (seedRange st a).blocks ≠ [] := by
  unfold seedRange
  split
  · simp
  · next hemp => simpa [List.isEmpty_iff] using hemp

theorem seedRange_of_ne (st : ScanState) (a : Nat) (h : st.blocks ≠ []) :
    seedRange st a = st := by
  simp [seedRange, List.isEmpty_iff, h]

theorem scanRange_blocks_ne (st : ScanState) (a : Nat) (lines : List LineIn) :
    (scanRange st a lines).blocks ≠ [] :=
  scanLines_blocks_ne _ _ _ (seedRange_blocks_ne st a)

theorem scanLines_append (xs ys : List LineIn) : ∀ (st : ScanState) (lnr : Nat),
    scanLines st lnr (xs ++ ys) = scanLines (scanLines st lnr xs) (lnr + xs.length) ys := by
  induction xs with
  | nil => intro st lnr; simp [scanLines]
  | cons x rest ih =>
      intro st lnr
      simp only [List.cons_append, scanLines, List.append_eq]
      rw [ih]
      have harith : lnr + 1 + rest.length = lnr + (x :: rest).length := by
        rw [List.length_cons]; omega
      rw [harith]

theorem scanParts_eq_scanLines (ps : List (List LineIn)) : ∀ (st : ScanState) (a : Nat),
    st.blocks ≠ [] → scanParts st a ps = scanLines st a ps.flatten := by
  induction ps with
  | nil => intro st a _; rfl
  | cons p rest ih =>
      intro st a h
      simp only [scanParts, List.flatten_cons]
      rw [scanLines_append]
      rw [ih _ _ (scanRange_blocks_ne st a p)]
      unfold scanRange
      rw [seedRange_of_ne st a h]

/-- C7: scanning a span as several consecutive visible ranges, each
range's starting block state seeded from the last block already
emitted, gives the same block list — and hence the same decoration
set — as scanning the whole span as one visible range, wherever the
range boundaries fall (inside special blocks included). -/
theorem C7_visible_range_split (a : Nat) (p : List LineIn) (ps : List (List LineIn))
    (texts : List (List Char)) (endLnr : Nat) :
    scanParts ⟨[], false⟩ a (p :: ps) = scanRange ⟨[], false⟩ a ((p :: ps).flatten) ∧
    decorateFromBlocks texts (scanParts ⟨[], false⟩ a (p :: ps)).blocks endLnr =
      decorateFromBlocks texts (scanRange ⟨[], false⟩ a ((p :: ps).flatten)).blocks endLnr := by
  have hmain : scanParts ⟨[], false⟩ a (p :: ps) =
      scanRange ⟨[], false⟩ a ((p :: ps).flatten) := by
    simp only [scanParts, List.flatten_cons]
    rw [scanParts_eq_scanLines ps _ _ (scanRange_blocks_ne _ a p)]
    unfold scanRange
    rw [scanLines_append]
  exact ⟨hmain, by rw [hmain]⟩

/- Helper lemmas for the structural splitter. -/

theorem moveSiblings_eq (xs : List (List Char)) : ∀ dst, moveSiblings xs dst = dst ++ xs := by
  induction xs with
  | nil => intro dst; simp [moveSiblings]
  | cons x rest ih => intro dst; simp [moveSiblings, ih]

theorem take_succ_set (l : List (List Char)) (k : Nat) (v : List Char) (hk : k < l.length) :
    (l.set k v).take (k + 1) = l.take k ++ [v] := by
  induction l generalizing k with
  | nil => simp at hk
  | cons x rest ih =>
      cases k with
      | zero => simp
      | succ k2 =>
          rw [List.set_cons_succ, List.take_succ_cons, List.take_succ_cons,
            ih k2 (by simpa using hk)]
          simp

theorem drop_succ_set (l : List (List Char)) (k : Nat) (v : List Char) :
    (l.set k v).drop (k + 1) = l.drop (k + 1) := by
  rw [List.drop_set]
  simp

/-- C4: when a list item's content holds an embedded marker-starting
line, the content before the first marker match stays in the truncated
original item, a definition list built by the logical-line splitter
from the remainder (the marker onward) follows the containing list,
and the following sibling items are moved, in order, into a new list
of the same kind placed right after the definition list. -/
theorem C4_list_absorption (kind : LKind) (items : List (List Char)) (k idx : Nat)
    (before after : List Element)
    (hidx : markerIdx (items.getD k []) = some idx)
    (_hnl : MARKERL.isPrefixOf ((items.getD k []).drop (idx + 1)) = true)
    (hsib : k + 1 < items.length) :
    before ++ processLi kind items k ++ after =
      before ++
        [Element.list kind (items.take k ++ [(items.getD k []).take idx]),
         Element.dl (splitNodes (parseHTML ((items.getD k []).drop (idx + 1)))),
         Element.list kind (items.drop (k + 1))] ++ after := by
  have hk : k < items.length := Nat.lt_of_succ_lt hsib
  have hne : items.drop (k + 1) ≠ [] := by
    simp only [ne_eq, List.drop_eq_nil_iff, not_le]
    exact hsib
  unfold processLi
  simp only [hidx, drop_succ_set]
  rw [if_neg (by simpa [List.isEmpty_iff] using hne)]
  rw [take_succ_set _ _ _ hk, moveSiblings_eq]
  simp

def liW4 : List Char := ("fixed list items before<br>\n:   defined term tail").data

def itemsW4 : List (List Char) := [liW4, ("sib one").data, ("sib two").data]

/-- C4, witness: Scenario D — a three-item bullet list whose first item
carries the embedded marker line splits into the truncated item, a
one-entry definition list, and a new list with the two siblings. -/
theorem C4_list_absorption_witness :
    (markerIdx (itemsW4.getD 0 []) = some 27 ∧
      MARKERL.isPrefixOf ((itemsW4.getD 0 []).drop 28) = true ∧
      0 + 1 < itemsW4.length) ∧
    [] ++ processLi LKind.ul itemsW4 0 ++ [] =
      [] ++
        [Element.list LKind.ul (itemsW4.take 0 ++ [(itemsW4.getD 0 []).take 27]),
         Element.dl (splitNodes (parseHTML ((itemsW4.getD 0 []).drop 28))),
         Element.list LKind.ul (itemsW4.drop 1)] ++ [] :=
  ⟨⟨by decide, by decide, by decide⟩,
    C4_list_absorption LKind.ul itemsW4 0 27 [] [] (by decide) (by decide) (by decide)⟩

/- Helper lemmas for the incremental updater. -/

theorem lastIdxLE_lt_length (bs : List blockOfLines) (n i : Nat)
    (h : lastIdxLE bs n = some i) : i < bs.length := by
  induction bs generalizing i with
  | nil => simp [lastIdxLE] at h
  | cons b rest ih =>
      cases hr : lastIdxLE rest n with
      | some j =>
          have hcons : lastIdxLE (b :: rest) n = some (j + 1) := by
            simp [lastIdxLE, hr]
          rw [hcons] at h
          cases h
          exact Nat.succ_lt_succ (ih j hr)
      | none =>
          have hcons : lastIdxLE (b :: rest) n =
              if b.firstLine ≤ n then some 0 else none := by
            simp [lastIdxLE, hr]
          rw [hcons] at h
          split at h
          · cases h
            simp
          · cases h

theorem getD_set_self (bs : List blockOfLines) (i : Nat) (v : blockOfLines)
    (hi : i < bs.length) : (bs.set i v).getD i default = v := by
  rw [List.getD_eq_getElem _ _ (by simpa using hi)]
  simp [List.getElem_set]

theorem decUpdate_filter_touches (decs adds : List Deco) (keep : Deco → Bool) (wf wt : Nat)
    (hadds : ∀ d ∈ adds, touches d wf wt = true)
    (hdecs : ∀ d ∈ decs, touches d wf wt = true → keep d = false) :
    (decUpdate decs keep wf wt adds).filter (fun d => touches d wf wt) = adds := by
  unfold decUpdate
  rw [List.filter_append, List.filter_filter]
  have h1 : decs.filter (fun d => touches d wf wt && (!(touches d wf wt) || keep d)) = [] := by
    rw [List.filter_eq_nil_iff]
    intro d hd
    by_cases ht : touches d wf wt = true
    · simp [ht, hdecs d hd ht]
    · simp [Bool.eq_false_iff.mpr ht]
  have h2 : adds.filter (fun d => touches d wf wt) = adds :=
    List.filter_eq_self.mpr hadds
  rw [h1, h2, List.nil_append]

theorem decUpdate_filter_away (decs adds : List Deco) (keep : Deco → Bool) (wf wt : Nat)
    (hadds : ∀ d ∈ adds, touches d wf wt = true) :
    (decUpdate decs keep wf wt adds).filter (fun d => !(touches d wf wt)) =
      decs.filter (fun d => !(touches d wf wt)) := by
  unfold decUpdate
  rw [List.filter_append, List.filter_filter]
  have h2 : adds.filter (fun d => !(touches d wf wt)) = [] := by
    rw [List.filter_eq_nil_iff]
    intro d hd
    simp [hadds d hd]
  have h1 : decs.filter (fun d => !(touches d wf wt) && (!(touches d wf wt) || keep d)) =
      decs.filter (fun d => !(touches d wf wt)) := by
    apply List.filter_congr
    intro d _
    by_cases ht : touches d wf wt = true <;> simp [ht]
  rw [h1, h2, List.append_nil]

/-- C6, counterexample to the claim as stated: in a non-special block
whose marker set is `[2]`, an edit inside the marker zone of line 1
(previously a list-item line `- item`, now `:   item`) toggles the
marker on; the marker set is updated and no rescan is needed, but the
line's decorations are not simply replaced by `definition` + `marker`:
the independent list-item branch fires as well and re-adds a `term`
line decoration to the same line. -/
theorem C6_counterexample :
    adjustDecorationsAfterEdit (decorateVisibleRangesFromScratch [mkList ("- item"),
        mkNormal (":   def")])
      (docTexts [mkNormal (":   item"), mkNormal (":   def")]) ⟨0, 2, 0, 4⟩ =
      some (⟨[⟨9, 9, DEF_CLASS⟩, ⟨9, 13, MARKER_CLASS⟩, ⟨0, 0, DEF_CLASS⟩,
              ⟨0, 4, MARKER_CLASS⟩, ⟨0, 0, TERM_CLASS⟩],
             [⟨1, false, [2, 1], []⟩], 2⟩, false) ∧
    (⟨0, 0, TERM_CLASS⟩ : Deco) ∈
      [⟨9, 9, DEF_CLASS⟩, ⟨9, 13, MARKER_CLASS⟩, ⟨0, 0, DEF_CLASS⟩,
       ⟨0, 4, MARKER_CLASS⟩, (⟨0, 0, TERM_CLASS⟩ : Deco)] ∧
    MARKERL.isPrefixOf (lineAt (docTexts [mkNormal (":   item"), mkNormal (":   def")]) 0).text
      = true ∧
    ((decorateVisibleRangesFromScratch [mkList ("- item"), mkNormal (":   def")]).lineBlocks.getD
      0 default).defMarkers = [2] := by
  decide

/-- C6, amended: when an edit inside the marker zone of a line of a
non-special block toggles whether the line starts with the marker, the
updater first updates the block's marker set; if the toggled marker is
the block's only one, a full rescan is requested; otherwise, provided
the same edit does not also toggle the line's list-item status, only
that line's decorations are patched — replaced by `definition` +
`marker` when the marker was added, by `term` when it was removed —
and all decorations not touching the line are exactly the previous
ones shifted by the edit. -/
theorem C6_marker_zone_toggle (st : EngineState) (texts : List (List Char)) (e : EditRange)
    (L : LineL) (i : Nat) (b : blockOfLines)
    (hL : lineAt texts e.f1 = L)
    (hlines : texts.length = st.numberOfLines)
    (hzone : ¬(L.lfrom + MARKER_LEN ≤ min e.f0 e.f1))
    (hfill : L.text.length ≠ e.t1 - e.f1)
    (hidx : lastIdxLE st.lineBlocks L.number = some i)
    (hb : st.lineBlocks.getD i default = b)
    (hns : b.special = false)
    (hnp : specialPat L.text = false)
    (htog : b.defMarkers.contains L.number = !(MARKERL.isPrefixOf L.text))
    (hlist : b.listLines.contains L.number = listPat L.text)
    (hprior : ∀ d ∈ st.decorations.map (mapDec e), touches d L.lfrom (lineTo L) = true →
       (if MARKERL.isPrefixOf L.text then d.cls = TERM_CLASS
        else d.cls = MARKER_CLASS ∨ d.cls = DEF_CLASS)) :
    ∃ st2 flag, adjustDecorationsAfterEdit st texts e = some (st2, flag) ∧
      (st2.lineBlocks.getD i default).defMarkers =
        (if MARKERL.isPrefixOf L.text then b.defMarkers ++ [L.number]
         else b.defMarkers.erase L.number) ∧
      (flag = true ↔ (if MARKERL.isPrefixOf L.text then b.defMarkers = []
         else b.defMarkers.erase L.number = [])) ∧
      (flag = false →
        st2.decorations.filter (fun d => touches d L.lfrom (lineTo L)) =
          (if MARKERL.isPrefixOf L.text then
             [⟨L.lfrom, L.lfrom, DEF_CLASS⟩, ⟨L.lfrom, L.lfrom + MARKER_LEN, MARKER_CLASS⟩]
           else [⟨L.lfrom, L.lfrom, TERM_CLASS⟩]) ∧
        st2.decorations.filter (fun d => !(touches d L.lfrom (lineTo L))) =
          (st.decorations.map (mapDec e)).filter
            (fun d => !(touches d L.lfrom (lineTo L)))) := by
  have hilen : i < st.lineBlocks.length := lastIdxLE_lt_length _ _ _ hidx
  unfold adjustDecorationsAfterEdit
  rw [if_neg (by simp [hlines])]
  rw [hL]
  rw [if_neg hzone, if_neg hfill, hidx]
  dsimp only
  rw [hb]
  have hcnotspec : ¬(b.special = !(specialPat L.text)) := by
    rw [hns, hnp]
    simp
  rw [if_neg hcnotspec]
  have htogne : (b.defMarkers.contains L.number) ≠ (MARKERL.isPrefixOf L.text) := by
    rw [htog]
    cases MARKERL.isPrefixOf L.text <;> simp
  rw [if_pos ⟨hns, htogne⟩]
  by_cases hpre : MARKERL.isPrefixOf L.text
  · -- marker added
    rw [if_pos hpre]
    by_cases honly : b.defMarkers = []
    · rw [if_pos (by simp [honly])]
      refine ⟨_, true, rfl, ?_, ?_, ?_⟩
      · rw [getD_set_self _ _ _ hilen]
        simp [hpre, honly]
      · simp [hpre, honly]
      · intro hcontra
        cases hcontra
    · rw [if_neg (by simp [honly])]
      have hcond : ¬(b.special = false ∧
          (b.listLines.contains L.number = !(listPat L.text))) := by
        rintro ⟨-, hcc⟩
        rw [hlist] at hcc
        cases hx : listPat L.text <;> rw [hx] at hcc <;> simp at hcc
      have hnofire : ∀ stx : EngineState,
          stx.lineBlocks = st.lineBlocks.set i { b with
            defMarkers := b.defMarkers ++ [L.number] } →
          adjustListBranch stx L i = stx := by
        intro stx hstx
        unfold adjustListBranch
        dsimp only
        rw [hstx, getD_set_self _ _ _ hilen]
        dsimp only
        rw [if_neg hcond]
      rw [hnofire _ rfl]
      refine ⟨_, false, rfl, ?_, ?_, ?_⟩
      · rw [getD_set_self _ _ _ hilen]
        simp [hpre]
      · simp [hpre, honly]
      · intro _
        constructor
        · rw [decUpdate_filter_touches]
          · simp [hpre]
          · intro d hd
            simp only [List.mem_cons, List.not_mem_nil, or_false] at hd
            rcases hd with rfl | rfl <;> simp [touches, lineTo]
          · intro d hd ht
            have := hprior d hd ht
            rw [if_pos hpre] at this
            simp [this]
        · rw [decUpdate_filter_away]
          intro d hd
          simp only [List.mem_cons, List.not_mem_nil, or_false] at hd
          rcases hd with rfl | rfl <;> simp [touches, lineTo]
  · -- marker removed
    rw [if_neg hpre]
    by_cases honly : b.defMarkers.erase L.number = []
    · rw [if_pos (by simp [honly])]
      refine ⟨_, true, rfl, ?_, ?_, ?_⟩
      · rw [getD_set_self _ _ _ hilen]
        simp [hpre, honly]
      · simp [hpre, honly]
      · intro hcontra
        cases hcontra
    · rw [if_neg (by simp [honly])]
      have hcond : ¬(b.special = false ∧
          (b.listLines.contains L.number = !(listPat L.text))) := by
        rintro ⟨-, hcc⟩
        rw [hlist] at hcc
        cases hx : listPat L.text <;> rw [hx] at hcc <;> simp at hcc
      have hnofire : ∀ stx : EngineState,
          stx.lineBlocks = st.lineBlocks.set i { b with
            defMarkers := b.defMarkers.erase L.number } →
          adjustListBranch stx L i = stx := by
        intro stx hstx
        unfold adjustListBranch
        dsimp only
        rw [hstx, getD_set_self _ _ _ hilen]
        dsimp only
        rw [if_neg hcond]
      rw [hnofire _ rfl]
      refine ⟨_, false, rfl, ?_, ?_, ?_⟩
      · rw [getD_set_self _ _ _ hilen]
        simp [hpre]
      · simp [hpre, honly]
      · intro _
        constructor
        · rw [decUpdate_filter_touches]
          · simp [hpre]
          · intro d hd
            simp only [List.mem_cons, List.not_mem_nil, or_false] at hd
            subst hd
            simp [touches, lineTo]
          · intro d hd ht
            have := hprior d hd ht
            rw [if_neg hpre] at this
            rcases this with h1 | h1 <;> simp [h1]
        · rw [decUpdate_filter_away]
          intro d hd
          simp only [List.mem_cons, List.not_mem_nil, or_false] at hd
          subst hd
          simp [touches, lineTo]

/-- C5, witness: appending one character at the end of the
definition-text line (offset 7, beyond the marker zone) leaves the
decoration set equal to the shifted previous set with no rescan. -/
theorem C5_offset_shift_witness :
    ((docTexts docW5b).length = stW5.numberOfLines ∧
      (lineAt (docTexts docW5b) 7).lfrom + MARKER_LEN ≤ min 7 7) ∧
    adjustDecorationsAfterEdit stW5 (docTexts docW5b) ⟨7, 7, 7, 8⟩ =
      some ({ stW5 with decorations := stW5.decorations.map (mapDec ⟨7, 7, 7, 8⟩) }, false) :=
  ⟨⟨by decide, by decide⟩,
    C5_offset_shift stW5 (docTexts docW5b) ⟨7, 7, 7, 8⟩ (by decide) (by decide)⟩

def docW6 : List LineIn := [mkNormal ("alpha"), mkNormal (":   beta"), mkNormal ("gamma")]

def stW6 : EngineState := decorateVisibleRangesFromScratch docW6

def docW6b : List LineIn := [mkNormal ("alpha"), mkNormal (":   beta"), mkNormal (":   gamma")]

def eW6 : EditRange := ⟨15, 15, 15, 19⟩

def LW6 : LineL := ⟨3, 15, (":   gamma").data⟩

def bW6 : blockOfLines := ⟨1, false, [2], []⟩

/-- C6, witness for the amended theorem: typing the marker at the head
of the term line `gamma` (a second marker in the block) patches just
that line to `definition` + `marker` without a rescan. -/
theorem C6_marker_zone_toggle_witness :
    (lineAt (docTexts docW6b) eW6.f1 = LW6 ∧
     (docTexts docW6b).length = stW6.numberOfLines ∧
     ¬(LW6.lfrom + MARKER_LEN ≤ min eW6.f0 eW6.f1) ∧
     LW6.text.length ≠ eW6.t1 - eW6.f1 ∧
     lastIdxLE stW6.lineBlocks LW6.number = some 0 ∧
     stW6.lineBlocks.getD 0 default = bW6 ∧
     bW6.special = false ∧
     specialPat LW6.text = false ∧
     bW6.defMarkers.contains LW6.number = !(MARKERL.isPrefixOf LW6.text) ∧
     bW6.listLines.contains LW6.number = listPat LW6.text ∧
     (∀ d ∈ stW6.decorations.map (mapDec eW6), touches d LW6.lfrom (lineTo LW6) = true →
        (if MARKERL.isPrefixOf LW6.text then d.cls = TERM_CLASS
         else d.cls = MARKER_CLASS ∨ d.cls = DEF_CLASS))) ∧
    (∃ st2 flag, adjustDecorationsAfterEdit stW6 (docTexts docW6b) eW6 = some (st2, flag) ∧
      (st2.lineBlocks.getD 0 default).defMarkers =
        (if MARKERL.isPrefixOf LW6.text then bW6.defMarkers ++ [LW6.number]
         else bW6.defMarkers.erase LW6.number) ∧
      (flag = true ↔ (if MARKERL.isPrefixOf LW6.text then bW6.defMarkers = []
         else bW6.defMarkers.erase LW6.number = [])) ∧
      (flag = false →
        st2.decorations.filter (fun d => touches d LW6.lfrom (lineTo LW6)) =
          (if MARKERL.isPrefixOf LW6.text then
             [⟨LW6.lfrom, LW6.lfrom, DEF_CLASS⟩,
              ⟨LW6.lfrom, LW6.lfrom + MARKER_LEN, MARKER_CLASS⟩]
           else [⟨LW6.lfrom, LW6.lfrom, TERM_CLASS⟩]) ∧
        st2.decorations.filter (fun d => !(touches d LW6.lfrom (lineTo LW6))) =
          (stW6.decorations.map (mapDec eW6)).filter
            (fun d => !(touches d LW6.lfrom (lineTo LW6))))) :=
  ⟨⟨by decide, by decide, by decide, by decide, by decide, by decide, by decide, by decide,
    by decide, by decide, by decide⟩,
   C6_marker_zone_toggle stW6 (docTexts docW6b) eW6 LW6 0 bW6 (by decide) (by decide)
     (by decide) (by decide) (by decide) (by decide) (by decide) (by decide) (by decide)
     (by decide) (by decide)⟩

def docW8 : List LineIn := [mkNormal ("term"), mkNormal (":   def")]

def stW8 : EngineState := decorateVisibleRangesFromScratch docW8

def docW8b : List LineIn :=
  [⟨some LType.normal, ("term").data ++ List.replicate 101 'a'⟩, mkNormal (":   def")]

/-- C8, counterexample: appending 101 characters at the end of the
term line (outside the marker zone, line count unchanged) makes it
105 characters long while the marker line still follows, yet the
end-to-end incremental update keeps the `term` decoration on the
edited line (only offset-shifting the rest) — the line is not demoted
to unstyled. -/
theorem C8_counterexample :
    100 < (lineTextN (docTexts docW8b) 1).length ∧
    MARKERL.isPrefixOf (lineTextN (docTexts docW8b) 2) = true ∧
    adjustAndRedecorate stW8 docW8b ⟨4, 4, 4, 105⟩ =
      some ⟨[⟨0, 0, TERM_CLASS⟩, ⟨106, 106, DEF_CLASS⟩, ⟨106, 110, MARKER_CLASS⟩],
            [⟨1, false, [2], []⟩], 2⟩ := by
  decide

/- Scanner invariant lemmas. -/

theorem flist_modifyLast (f : blockOfLines → blockOfLines)
    (hf : ∀ b, (f b).firstLine = b.firstLine) (bs : List blockOfLines) :
    flist (modifyLast f bs) = flist bs := by
  induction bs with
  | nil => rfl
  | cons b rest ih =>
      cases rest with
      | nil => simp [modifyLast, flist, hf]
      | cons b2 rest2 =>
          simp only [modifyLast, flist, List.map_cons] at *
          rw [ih]

theorem curBlock_firstLine (st : ScanState) :
    (curBlock st).firstLine = (flist st.blocks).getLastD 0 := by
  unfold curBlock flist
  rw [List.getLastD_eq_getLast?, List.getLast?_map]
  cases st.blocks.getLast? <;> simp
  rfl

theorem getLast?_eq_getLastD (l : List Nat) (h : l ≠ []) :
    l.getLast? = some (l.getLastD 0) := by
  cases hl : l.getLast? with
  | none => exact absurd (List.getLast?_eq_none_iff.mp hl) h
  | some v => rw [List.getLastD_eq_getLast?, hl]; rfl

theorem BlocksInv.mono {a m m2 : Nat} {bs : List blockOfLines}
    (h : BlocksInv a m bs) (hm : m ≤ m2) : BlocksInv a m2 bs :=
  ⟨h.1, h.2.1, h.2.2.1, le_trans h.2.2.2 hm⟩

theorem BlocksInv.modifyLast {a m : Nat} {bs : List blockOfLines}
    (h : BlocksInv a m bs) (f : blockOfLines → blockOfLines)
    (hf : ∀ b, (f b).firstLine = b.firstLine) :
    BlocksInv a m (modifyLast f bs) := by
  refine ⟨modifyLast_ne_nil f bs h.1, ?_, ?_, ?_⟩ <;>
    rw [flist_modifyLast f hf bs]
  · exact h.2.1
  · exact h.2.2.1
  · exact h.2.2.2

theorem BlocksInv.push {a m : Nat} {bs : List blockOfLines} {x m2 : Nat}
    {nb : blockOfLines}
    (h : BlocksInv a m bs) (hx : (flist bs).getLastD 0 < x) (hnb : nb.firstLine = x)
    (hm : x ≤ m2) : BlocksInv a m2 (bs ++ [nb]) := by
  obtain ⟨hne, hch, hhd, _⟩ := h
  have hfne : flist bs ≠ [] := by
    simpa [flist] using hne
  refine ⟨by simp, ?_, ?_, ?_⟩
  · rw [show flist (bs ++ [nb]) = flist bs ++ [x] by simp [flist, hnb]]
    rw [List.chain'_append]
    refine ⟨hch, List.chain'_singleton x, ?_⟩
    intro p hp q hq
    rw [getLast?_eq_getLastD _ hfne] at hp
    cases hp
    simp only [List.head?_cons, Option.mem_def, Option.some.injEq] at hq
    subst hq
    exact hx
  · rw [show flist (bs ++ [nb]) = flist bs ++ [x] by simp [flist, hnb]]
    rw [List.headD_eq_head?, List.head?_append]
    cases hh : (flist bs).head? with
    | none => exact absurd (List.head?_eq_none_iff.mp hh) hfne
    | some v =>
        rw [← hhd, List.headD_eq_head?, hh]
        rfl
  · rw [show flist (bs ++ [nb]) = flist bs ++ [x] by simp [flist, hnb]]
    rw [List.getLastD_eq_getLast?, List.getLast?_concat]
    exact hm

theorem scanStep_inv {a lnr : Nat} (l : LineIn) (st : ScanState)
    (h : BlocksInv a lnr st.blocks) :
    BlocksInv a (lnr + 1) (scanStep lnr l st).blocks := by
  have hcur : (curBlock st).firstLine = (flist st.blocks).getLastD 0 :=
    curBlock_firstLine st
  have hlast := h.2.2.2
  unfold scanStep
  cases hl : l.ltype with
  | none => exact h.mono (Nat.le_succ lnr)
  | some lt =>
      have key : ∀ (c : Prop) (inst : Decidable c) (st1 : ScanState),
          BlocksInv a (lnr + 1) st1.blocks →
          BlocksInv a (lnr + 1) ((if MARKERL.isPrefixOf l.text then
            { st1 with blocks := (modifyLast
                (fun b => { b with defMarkers := b.defMarkers ++ [lnr] }) st1.blocks) }
          else if c then
            { st1 with blocks := (modifyLast
                (fun b => { b with listLines := b.listLines ++ [lnr] }) st1.blocks) }
          else st1).blocks) := by
        intro c inst st1 h1
        split
        · exact h1.modifyLast _ (fun b => rfl)
        · split
          · exact h1.modifyLast _ (fun b => rfl)
          · exact h1
      cases lt with
      | blockStart =>
          dsimp only
          split
          · next hg =>
              rw [hcur] at hg
              refine h.push ?_ rfl (Nat.le_succ lnr)
              show (flist st.blocks).getLastD 0 < lnr
              omega
          · exact (h.modifyLast markSpecial (fun b => rfl)).mono (Nat.le_succ lnr)
      | blockEnd =>
          dsimp only
          refine (h.modifyLast markSpecial (fun b => rfl)).push ?_ rfl le_rfl
          rw [flist_modifyLast markSpecial (fun b => rfl)]
          show (flist st.blocks).getLastD 0 < lnr + 1
          omega
      | block =>
          exact (h.modifyLast markSpecial (fun b => rfl)).mono (Nat.le_succ lnr)
      | contiguousBlock =>
          dsimp only
          split
          · exact h.mono (Nat.le_succ lnr)
          · split
            · next hg =>
                rw [hcur] at hg
                refine h.push ?_ rfl (Nat.le_succ lnr)
                show (flist st.blocks).getLastD 0 < lnr
                omega
            · exact (h.modifyLast markSpecial (fun b => rfl)).mono (Nat.le_succ lnr)
      | normal =>
          dsimp only
          apply key
          split
          · split
            · next hg =>
                rw [hcur] at hg
                refine h.push ?_ rfl (Nat.le_succ lnr)
                show (flist st.blocks).getLastD 0 < lnr
                omega
            · exact h.mono (Nat.le_succ lnr)
          · exact h.mono (Nat.le_succ lnr)
      | listItem =>
          dsimp only
          apply key
          split
          · split
            · next hg =>
                rw [hcur] at hg
                refine h.push ?_ rfl (Nat.le_succ lnr)
                show (flist st.blocks).getLastD 0 < lnr
                omega
            · exact h.mono (Nat.le_succ lnr)
          · exact h.mono (Nat.le_succ lnr)

theorem scanLines_inv {a : Nat} (lines : List LineIn) : ∀ (st : ScanState) (lnr : Nat),
    BlocksInv a lnr st.blocks →
    BlocksInv a (lnr + lines.length) (scanLines st lnr lines).blocks := by
  induction lines with
  | nil => intro st lnr h; simpa using h
  | cons l rest ih =>
      intro st lnr h
      have h2 := ih (scanStep lnr l st) (lnr + 1) (scanStep_inv l st h)
      rw [List.length_cons]
      have : lnr + 1 + rest.length = lnr + (rest.length + 1) := by omega
      rw [← this]
      exact h2

theorem scanRange_inv (a : Nat) (lines : List LineIn) :
    BlocksInv a (a + lines.length) (scanRange ⟨[], false⟩ a lines).blocks := by
  unfold scanRange
  apply scanLines_inv
  refine ⟨by simp [seedRange], ?_, ?_, ?_⟩ <;>
    simp [seedRange, flist]

/- Existence and uniqueness of the extent containing a line. -/

theorem sorted_head_le_getD (l : List Nat) (hch : l.Chain' (· < ·)) :
    ∀ m, m < l.length → l.headD 0 ≤ l.getD m 0 := by
  intro m hm
  cases l with
  | nil => simp at hm
  | cons x rest =>
      cases m with
      | zero => simp
      | succ m2 =>
          have hpw := List.chain'_iff_pairwise.mp hch
          have hx : ∀ y ∈ rest, x < y := (List.pairwise_cons.mp hpw).1
          have hm2 : m2 < rest.length := by simpa using hm
          have hmem : rest.getD m2 0 ∈ rest := by
            rw [List.getD_eq_getElem _ _ hm2]
            exact List.getElem_mem hm2
          simp only [List.headD_cons, List.getD_cons_succ]
          exact le_of_lt (hx _ hmem)

theorem sorted_extent (fls : List Nat) (endL n : Nat) (hne : fls ≠ [])
    (hch : fls.Chain' (· < ·)) (hhd : fls.headD 0 ≤ n) (hn : n < endL) :
    ∃! i : Nat, i < fls.length ∧ fls.getD i 0 ≤ n ∧
      n < (if i + 1 < fls.length then fls.getD (i + 1) 0 else endL) := by
  induction fls with
  | nil => exact absurd rfl hne
  | cons x rest ih =>
      cases rest with
      | nil =>
          refine ⟨0, ⟨by simp, by simpa using hhd, by simpa using hn⟩, ?_⟩
          intro j hj
          have hh := hj.1
          simp only [List.length_singleton] at hh
          omega
      | cons y rest2 =>
          by_cases hy : n < y
          · refine ⟨0, ⟨by simp, by simpa using hhd, ?_⟩, ?_⟩
            · have hlt : 0 + 1 < (x :: y :: rest2).length := by simp
              rw [if_pos hlt]
              simpa using hy
            · intro j hj
              obtain ⟨hjl, hja, _⟩ := hj
              cases j with
              | zero => rfl
              | succ m =>
                  exfalso
                  rw [List.getD_cons_succ] at hja
                  have htail : (y :: rest2).Chain' (· < ·) := hch.tail
                  have hjl2 : m < (y :: rest2).length := by simpa using hjl
                  have := sorted_head_le_getD (y :: rest2) htail m hjl2
                  simp only [List.headD_cons] at this
                  omega
          · have hyn : y ≤ n := Nat.le_of_not_lt hy
            have htail : (y :: rest2).Chain' (· < ·) := hch.tail
            obtain ⟨i2, ⟨hi2l, hi2a, hi2b⟩, hi2u⟩ :=
              ih (by simp) htail (by simpa using hyn)
            refine ⟨i2 + 1, ⟨by simpa using hi2l, by simpa using hi2a, ?_⟩, ?_⟩
            · by_cases hc : i2 + 1 < (y :: rest2).length
              · rw [if_pos (by simpa using hc)]
                rw [if_pos hc] at hi2b
                simpa using hi2b
              · rw [if_neg (by simpa using hc)]
                rw [if_neg hc] at hi2b
                exact hi2b
            · intro j hj
              obtain ⟨hjl, hja, hjb⟩ := hj
              cases j with
              | zero =>
                  exfalso
                  have hlt : 0 + 1 < (x :: y :: rest2).length := by simp
                  rw [if_pos hlt] at hjb
                  simp only [List.getD_cons_succ, List.getD_cons_zero] at hjb
                  omega
              | succ m =>
                  have hm : m = i2 := by
                    apply hi2u
                    refine ⟨by simpa using hjl, by simpa using hja, ?_⟩
                    by_cases hc : m + 1 < (y :: rest2).length
                    · rw [if_pos hc]
                      rw [if_pos (by simpa using hc)] at hjb
                      simpa using hjb
                    · rw [if_neg hc]
                      rw [if_neg (by simpa using hc)] at hjb
                      exact hjb
                  rw [hm]

theorem flist_getD (bs : List blockOfLines) (i : Nat) (hi : i < bs.length) :
    (flist bs).getD i 0 = (bs.getD i default).firstLine := by
  have hif : i < (flist bs).length := by simpa [flist] using hi
  rw [List.getD_eq_getElem _ _ hif, List.getD_eq_getElem _ _ hi]
  simp [flist]

theorem headD_firstLine (bs : List blockOfLines) (h : bs ≠ []) :
    (bs.headD default).firstLine = (flist bs).headD 0 := by
  cases bs with
  | nil => exact absurd rfl h
  | cons b rest => simp [flist]

theorem inExtent_iff_flist (bs : List blockOfLines) (endLnr i n : Nat)
    (hi : i < bs.length) :
    inExtent bs endLnr i n ↔ ((flist bs).getD i 0 ≤ n ∧
      n < (if i + 1 < (flist bs).length then (flist bs).getD (i + 1) 0 else endLnr)) := by
  unfold inExtent
  rw [flist_getD bs i hi]
  have hlen : (flist bs).length = bs.length := by simp [flist]
  by_cases hc : i + 1 < bs.length
  · rw [if_pos hc, if_pos (by rw [hlen]; exact hc), flist_getD bs (i + 1) hc]
  · rw [if_neg hc, if_neg (by rw [hlen]; exact hc)]

/-- C3: the blocks produced by a from-scratch scan of a span partition
the scanned lines — their `firstLine` values are strictly increasing,
the first block starts at the span start, and every scanned line lies
in the extent of exactly one block (up to the next block's `firstLine`
or the span end for the last block). -/
theorem C3_block_partition (a : Nat) (lines : List LineIn) (n : Nat)
    (hn1 : a ≤ n) (hn2 : n < a + lines.length) :
    (flist (scanRange ⟨[], false⟩ a lines).blocks).Chain' (· < ·) ∧
    ((scanRange ⟨[], false⟩ a lines).blocks.headD default).firstLine = a ∧
    (∃! i : Nat, i < (scanRange ⟨[], false⟩ a lines).blocks.length ∧
      inExtent (scanRange ⟨[], false⟩ a lines).blocks (a + lines.length) i n) := by
  obtain ⟨hne, hch, hhd, hlast⟩ := scanRange_inv a lines
  refine ⟨hch, by rw [headD_firstLine _ hne, hhd], ?_⟩
  have hfne : flist (scanRange ⟨[], false⟩ a lines).blocks ≠ [] := by
    simpa [flist] using hne
  obtain ⟨i, ⟨hil, hia, hib⟩, hiu⟩ :=
    sorted_extent (flist (scanRange ⟨[], false⟩ a lines).blocks) (a + lines.length) n
      hfne hch (by rw [hhd]; exact hn1) hn2
  have hlen : (flist (scanRange ⟨[], false⟩ a lines).blocks).length =
      (scanRange ⟨[], false⟩ a lines).blocks.length := by simp [flist]
  rw [hlen] at hil
  refine ⟨i, ⟨hil, (inExtent_iff_flist _ _ _ _ hil).mpr ⟨hia, hib⟩⟩, ?_⟩
  intro j hj
  obtain ⟨hjl, hjext⟩ := hj
  apply hiu
  obtain ⟨hja, hjb⟩ := (inExtent_iff_flist _ _ _ _ hjl).mp hjext
  exact ⟨by rw [hlen]; exact hjl, hja, hjb⟩

def docW3 : List LineIn := [mkNormal ("half-life"), mkNormal (":   goes as"),
  ⟨some LType.blockStart, ("$$").data⟩, ⟨some LType.block, ("C(t)").data⟩,
  ⟨some LType.blockEnd, ("$$").data⟩, mkNormal (":   with T the half-life.")]

/-- C3, witness: in the three-block scan of Scenario C, line 4 (inside
the formula block) lies in the extent of exactly one block. -/
theorem C3_block_partition_witness :
    (1 ≤ 4 ∧ 4 < 1 + docW3.length) ∧
    ((flist (scanRange ⟨[], false⟩ 1 docW3).blocks).Chain' (· < ·) ∧
     ((scanRange ⟨[], false⟩ 1 docW3).blocks.headD default).firstLine = 1 ∧
     (∃! i : Nat, i < (scanRange ⟨[], false⟩ 1 docW3).blocks.length ∧
       inExtent (scanRange ⟨[], false⟩ 1 docW3).blocks (1 + docW3.length) i 4)) :=
  ⟨⟨by decide, by decide⟩, C3_block_partition 1 docW3 4 (by decide) (by decide)⟩

/- Offset lemmas: line start offsets are strictly increasing, so a
decoration's anchor identifies its line. -/

theorem lineFrom_succ (texts : List (List Char)) (n : Nat) (h1 : 1 ≤ n)
    (h3 : n ≤ texts.length) :
    lineFrom texts (n + 1) = lineFrom texts n + ((texts.getD (n - 1) []).length + 1) := by
  unfold lineFrom
  have hn1 : n - 1 < texts.length := by omega
  have htake : texts.take (n + 1 - 1) = texts.take (n - 1) ++ [texts.getD (n - 1) []] := by
    have heq : n + 1 - 1 = (n - 1) + 1 := by omega
    rw [heq, List.take_succ]
    congr 1
    rw [List.getElem?_eq_getElem hn1, List.getD_eq_getElem _ _ hn1]
    rfl
  rw [htake, List.map_append, List.sum_append]
  simp

theorem lineFrom_mono (texts : List (List Char)) (n m : Nat) (h : n ≤ m) :
    lineFrom texts n ≤ lineFrom texts m := by
  unfold lineFrom
  have heq : m - 1 = (n - 1) + (m - 1 - (n - 1)) := by omega
  rw [heq, List.take_add, List.map_append, List.sum_append]
  exact Nat.le_add_right _ _

theorem lineFrom_lt_lineFrom (texts : List (List Char)) (n m : Nat)
    (h1 : 1 ≤ n) (h2 : n < m) (h3 : n ≤ texts.length) :
    lineFrom texts n < lineFrom texts m := by
  have hs := lineFrom_succ texts n h1 h3
  have hm := lineFrom_mono texts (n + 1) m h2
  omega

theorem beq_lineFrom_false (texts : List (List Char)) (m n : Nat)
    (h1 : 1 ≤ m) (h2 : 1 ≤ n) (h3 : m ≤ texts.length) (h4 : n ≤ texts.length)
    (hne : m ≠ n) :
    (lineFrom texts m == lineFrom texts n) = false := by
  rw [beq_eq_false_iff_ne]
  rcases Nat.lt_or_ge m n with hlt | hge
  · exact Nat.ne_of_lt (lineFrom_lt_lineFrom texts m n h1 hlt h3)
  · have hlt2 : n < m := Nat.lt_of_le_of_ne hge (Ne.symm hne)
    exact (Nat.ne_of_lt (lineFrom_lt_lineFrom texts n m h2 hlt2 h4)).symm

theorem decorateLine_anchor (texts : List (List Char)) (b : blockOfLines) (m : Nat) :
    ∀ d ∈ decorateLine texts b m, d.dfrom = lineFrom texts m := by
  intro d hd
  simp only [decorateLine] at hd
  split at hd
  · simp only [List.mem_cons, List.not_mem_nil, or_false] at hd
    rcases hd with rfl | rfl <;> rfl
  · split at hd
    · simp only [List.mem_cons, List.not_mem_nil, or_false] at hd
      subst hd; rfl
    · split at hd
      · simp only [List.mem_cons, List.not_mem_nil, or_false] at hd
        subst hd; rfl
      · simp at hd

theorem filter_flatten_single (p : Deco → Bool) (g : Nat → List Deco) :
    ∀ (ms : List Nat) (n : Nat), n ∈ ms → ms.Nodup →
    (∀ d ∈ g n, p d = true) →
    (∀ m ∈ ms, m ≠ n → ∀ d ∈ g m, p d = false) →
    ((ms.map g).flatten).filter p = g n := by
  intro ms
  induction ms with
  | nil => intro n hmem; simp at hmem
  | cons m rest ih =>
      intro n hmem hnd hn hother
      simp only [List.map_cons, List.flatten_cons, List.filter_append]
      rcases List.mem_cons.mp hmem with rfl | hmem2
      · rw [List.filter_eq_self.mpr hn]
        have hrest : ((rest.map g).flatten).filter p = [] := by
          rw [List.filter_eq_nil_iff]
          intro d hd
          rw [List.mem_flatten] at hd
          obtain ⟨lst, hlst, hdl⟩ := hd
          rw [List.mem_map] at hlst
          obtain ⟨m2, hm2, rfl⟩ := hlst
          have hne : m2 ≠ n := by
            rintro rfl
            exact (List.nodup_cons.mp hnd).1 hm2
          simp [hother m2 (List.mem_cons_of_mem _ hm2) hne d hdl]
        rw [hrest, List.append_nil]
      · have hmne : m ≠ n := by
          rintro rfl
          exact (List.nodup_cons.mp hnd).1 hmem2
        have hhead : (g m).filter p = [] := by
          rw [List.filter_eq_nil_iff]
          intro d hd
          simp [hother m (List.mem_cons_self m rest) hmne d hd]
        rw [hhead, List.nil_append]
        exact ih n hmem2 (List.nodup_cons.mp hnd).2
          (fun d hd => hn d hd)
          (fun m2 hm2 hne => hother m2 (List.mem_cons_of_mem _ hm2) hne)

theorem flist_getD_mem (bs : List blockOfLines) (i : Nat) (hi : i < bs.length) :
    (bs.getD i default).firstLine ∈ flist bs := by
  rw [← flist_getD bs i hi]
  have hif : i < (flist bs).length := by simpa [flist] using hi
  rw [List.getD_eq_getElem _ _ hif]
  exact List.getElem_mem hif

theorem sorted_headD_le_mem (l : List Nat) (hch : l.Chain' (· < ·)) :
    ∀ x ∈ l, l.headD 0 ≤ x := by
  intro x hx
  cases l with
  | nil => simp at hx
  | cons h t =>
      rcases List.mem_cons.mp hx with rfl | hx2
      · simp
      · have hpw := List.chain'_iff_pairwise.mp hch
        have := (List.pairwise_cons.mp hpw).1 x hx2
        simp only [List.headD_cons]
        exact le_of_lt this

theorem inExtent_lt_endLnr (bs : List blockOfLines) (endLnr i n : Nat)
    (hub : ∀ x ∈ flist bs, x ≤ endLnr) (h : inExtent bs endLnr i n) : n < endLnr := by
  obtain ⟨_, h2⟩ := h
  split at h2
  · next hc => exact lt_of_lt_of_le h2 (hub _ (flist_getD_mem bs (i + 1) hc))
  · exact h2

theorem filter_blockLines_at (texts : List (List Char)) (b : blockOfLines) (end1 n : Nat)
    (hfl1 : 1 ≤ b.firstLine) (hfln : b.firstLine ≤ n) (hn : n < end1)
    (hend : end1 ≤ texts.length + 1) :
    (decorateBlockLines texts b end1).filter (fun d => d.dfrom == lineFrom texts n) =
      decorateLine texts b n := by
  unfold decorateBlockLines
  apply filter_flatten_single
  · rw [List.mem_range'_1]
    omega
  · exact List.nodup_range' _ _
  · intro d hd
    rw [decorateLine_anchor texts b n d hd]
    exact beq_self_eq_true _
  · intro m hm hne d hd
    rw [decorateLine_anchor texts b m d hd]
    rw [List.mem_range'_1] at hm
    apply beq_lineFrom_false <;> omega

theorem filter_blockLines_nil_of_lt (texts : List (List Char)) (b : blockOfLines)
    (end1 n : Nat) (hfl1 : 1 ≤ b.firstLine) (hlt : end1 ≤ n)
    (_hend : end1 ≤ texts.length + 1) (hn1 : 1 ≤ n) (hn2 : n ≤ texts.length) :
    (decorateBlockLines texts b end1).filter (fun d => d.dfrom == lineFrom texts n) = [] := by
  rw [List.filter_eq_nil_iff]
  intro d hd
  unfold decorateBlockLines at hd
  rw [List.mem_flatten] at hd
  obtain ⟨lst, hlst, hdl⟩ := hd
  rw [List.mem_map] at hlst
  obtain ⟨m, hm, rfl⟩ := hlst
  rw [List.mem_range'_1] at hm
  have ha := decorateLine_anchor texts b m d hdl
  have hbf : (lineFrom texts m == lineFrom texts n) = false := by
    apply beq_lineFrom_false <;> omega
  simp only [ha, hbf]
  simp

theorem decorateFromBlocks_anchor (texts : List (List Char)) :
    ∀ (bs : List blockOfLines) (endLnr : Nat),
    (flist bs).Chain' (· < ·) →
    (∀ x ∈ flist bs, x ≤ endLnr) →
    ∀ d ∈ decorateFromBlocks texts bs endLnr,
      ∃ m, (flist bs).headD 0 ≤ m ∧ m < endLnr ∧ d.dfrom = lineFrom texts m := by
  intro bs
  induction bs with
  | nil => intro endLnr _ _ d hd; simp [decorateFromBlocks] at hd
  | cons b rest ih =>
      intro endLnr hch hub d hd
      simp only [decorateFromBlocks] at hd
      rw [List.mem_append] at hd
      rcases hd with hd | hd
      · split at hd
        · simp at hd
        · unfold decorateBlockLines at hd
          rw [List.mem_flatten] at hd
          obtain ⟨lst, hlst, hdl⟩ := hd
          rw [List.mem_map] at hlst
          obtain ⟨m, hm, rfl⟩ := hlst
          rw [List.mem_range'_1] at hm
          refine ⟨m, ?_, ?_, decorateLine_anchor texts b m d hdl⟩
          · simp only [flist, List.map_cons, List.headD_cons]
            omega
          · cases rest with
            | nil =>
                dsimp only at hm
                omega
            | cons b2 rest2 =>
                dsimp only at hm
                have hb2 : b2.firstLine ≤ endLnr := hub _ (by simp [flist])
                omega
      · cases rest with
        | nil => simp [decorateFromBlocks] at hd
        | cons b2 rest2 =>
            have hch2 : (flist (b2 :: rest2)).Chain' (· < ·) := by
              have h0 := hch
              simp only [flist, List.map_cons] at h0 ⊢
              exact h0.tail
            have hub2 : ∀ x ∈ flist (b2 :: rest2), x ≤ endLnr := by
              intro x hx
              apply hub
              simp only [flist, List.map_cons, List.mem_cons] at hx ⊢
              tauto
            obtain ⟨m, hm1, hm2, hm3⟩ := ih endLnr hch2 hub2 d hd
            refine ⟨m, ?_, hm2, hm3⟩
            have hblt : b.firstLine < b2.firstLine := by
              have h0 := hch
              simp only [flist, List.map_cons] at h0
              exact h0.rel_head
            simp only [flist, List.map_cons, List.headD_cons] at hm1 ⊢
            omega

theorem filter_decorate_nil_of_gt (texts : List (List Char)) (bs : List blockOfLines)
    (endLnr n : Nat)
    (hch : (flist bs).Chain' (· < ·))
    (hub : ∀ x ∈ flist bs, x ≤ endLnr)
    (hlo : ∀ x ∈ flist bs, n < x)
    (hend : endLnr ≤ texts.length + 1)
    (hn1 : 1 ≤ n) (hn2 : n ≤ texts.length) :
    (decorateFromBlocks texts bs endLnr).filter (fun d => d.dfrom == lineFrom texts n) = [] := by
  rw [List.filter_eq_nil_iff]
  intro d hd
  obtain ⟨m, hm1, hm2, hm3⟩ := decorateFromBlocks_anchor texts bs endLnr hch hub d hd
  have hbsne : bs ≠ [] := by
    rintro rfl
    simp [decorateFromBlocks] at hd
  have hhd : (flist bs).headD 0 ∈ flist bs := by
    cases bs with
    | nil => exact absurd rfl hbsne
    | cons b rest => simp [flist]
  have hnm : n < m := lt_of_lt_of_le (hlo _ hhd) hm1
  have hbf : (lineFrom texts m == lineFrom texts n) = false := by
    apply beq_lineFrom_false <;> omega
  simp only [hm3, hbf]
  simp

theorem inExtent_cons_succ (b : blockOfLines) (rest : List blockOfLines)
    (endLnr i n : Nat) :
    inExtent (b :: rest) endLnr (i + 1) n ↔ inExtent rest endLnr i n := by
  unfold inExtent
  simp only [List.getD_cons_succ, List.length_cons]
  constructor
  · rintro ⟨h1, h2⟩
    refine ⟨h1, ?_⟩
    by_cases hc : i + 1 < rest.length
    · rw [if_pos hc]
      rw [if_pos (by omega)] at h2
      simpa using h2
    · rw [if_neg hc]
      rw [if_neg (by omega)] at h2
      exact h2
  · rintro ⟨h1, h2⟩
    refine ⟨h1, ?_⟩
    by_cases hc : i + 1 < rest.length
    · rw [if_pos (by omega)]
      rw [if_pos hc] at h2
      simpa using h2
    · rw [if_neg (by omega)]
      rw [if_neg hc] at h2
      exact h2

theorem decorate_filter_at (texts : List (List Char)) :
    ∀ (bs : List blockOfLines) (endLnr i n : Nat),
    (flist bs).Chain' (· < ·) →
    (∀ x ∈ flist bs, x ≤ endLnr) →
    (∀ x ∈ flist bs, 1 ≤ x) →
    endLnr ≤ texts.length + 1 →
    i < bs.length →
    (bs.getD i default).special = false →
    (bs.getD i default).defMarkers ≠ [] →
    inExtent bs endLnr i n →
    (decorateFromBlocks texts bs endLnr).filter (fun d => d.dfrom == lineFrom texts n) =
      decorateLine texts (bs.getD i default) n := by
  intro bs
  induction bs with
  | nil => intro endLnr i n _ _ _ _ hi; simp at hi
  | cons b rest ih =>
      intro endLnr i n hch hub hlb hend hi hspec hmk hext
      have hnend : n < endLnr := inExtent_lt_endLnr _ _ _ _ hub hext
      simp only [decorateFromBlocks, List.filter_append]
      cases i with
      | zero =>
          simp only [List.getD_cons_zero] at hspec hmk ⊢
          obtain ⟨hext1, hext2⟩ := hext
          simp only [List.getD_cons_zero] at hext1
          have hbf1 : 1 ≤ b.firstLine := hlb _ (by simp [flist])
          have h1n : 1 ≤ n := le_trans hbf1 hext1
          have hnlen : n ≤ texts.length := by omega
          rw [if_neg (by simp [hspec, hmk])]
          cases rest with
          | nil =>
              rw [if_neg (by simp)] at hext2
              rw [show decorateFromBlocks texts [] endLnr = [] from rfl]
              rw [List.filter_nil, List.append_nil]
              exact filter_blockLines_at texts b endLnr n hbf1 hext1 hext2 hend
          | cons b2 rest2 =>
              have hext2b : n < b2.firstLine := by
                rw [if_pos (by simp)] at hext2
                simpa using hext2
              have hb2le : b2.firstLine ≤ endLnr := hub _ (by simp [flist])
              have hchtail : (flist (b2 :: rest2)).Chain' (· < ·) := by
                have h0 := hch
                simp only [flist, List.map_cons] at h0 ⊢
                exact h0.tail
              rw [filter_blockLines_at texts b b2.firstLine n hbf1 hext1 hext2b (by omega)]
              rw [filter_decorate_nil_of_gt texts (b2 :: rest2) endLnr n hchtail
                (fun x hx => hub x (by simp only [flist, List.map_cons, List.mem_cons] at hx ⊢; tauto))
                (fun x hx => lt_of_lt_of_le hext2b (sorted_headD_le_mem _ hchtail x hx))
                hend h1n hnlen]
              exact List.append_nil _
      | succ i2 =>
          have hi2 : i2 < rest.length := by simpa using hi
          cases rest with
          | nil => simp at hi2
          | cons b2 rest2 =>
              simp only [List.getD_cons_succ] at hspec hmk ⊢
              have hext' : inExtent (b2 :: rest2) endLnr i2 n :=
                (inExtent_cons_succ b (b2 :: rest2) endLnr i2 n).mp hext
              have hchtail : (flist (b2 :: rest2)).Chain' (· < ·) := by
                have h0 := hch
                simp only [flist, List.map_cons] at h0 ⊢
                exact h0.tail
              have hbf1 : 1 ≤ b.firstLine := hlb _ (by simp [flist])
              have hb2n : b2.firstLine ≤ n := by
                have hx1 := hext'.1
                have hmem := flist_getD_mem (b2 :: rest2) i2 hi2
                have := sorted_headD_le_mem _ hchtail _ hmem
                simp only [flist, List.map_cons, List.headD_cons] at this
                exact le_trans this hx1
              have hb2le : b2.firstLine ≤ endLnr := hub _ (by simp [flist])
              have h1n : 1 ≤ n := le_trans (hlb _ (by simp [flist])) hb2n
              have hnlen : n ≤ texts.length := by omega
              have hcontrib : (if b.special = true ∨ b.defMarkers = [] then []
                  else decorateBlockLines texts b b2.firstLine).filter
                    (fun d => d.dfrom == lineFrom texts n) = [] := by
                split
                · simp
                · exact filter_blockLines_nil_of_lt texts b b2.firstLine n hbf1 hb2n
                    (by omega) h1n hnlen
              rw [hcontrib, List.nil_append]
              exact ih endLnr i2 n hchtail
                (fun x hx => hub x (by simp only [flist, List.map_cons, List.mem_cons] at hx ⊢; tauto))
                (fun x hx => hlb x (by simp only [flist, List.map_cons, List.mem_cons] at hx ⊢; tauto))
                hend hi2 hspec hmk hext'

theorem sorted_mem_le_getLastD (l : List Nat) :
    l.Chain' (· < ·) → ∀ x ∈ l, x ≤ l.getLastD 0 := by
  induction l with
  | nil => intro _ x hx; simp at hx
  | cons h t ih =>
      intro hch x hx
      cases t with
      | nil =>
          simp only [List.mem_singleton] at hx
          subst hx
          simp
      | cons h2 t2 =>
          have hlast_eq : (h :: h2 :: t2).getLastD 0 = (h2 :: t2).getLastD 0 := by
            rw [List.getLastD_eq_getLast?, List.getLastD_eq_getLast?,
              List.getLast?_cons_cons]
          rcases List.mem_cons.mp hx with rfl | hx2
          · have hx2le : h2 ≤ (h2 :: t2).getLastD 0 :=
              ih hch.tail h2 (List.mem_cons_self _ _)
            have hlt : x < h2 := hch.rel_head
            rw [hlast_eq]
            omega
          · rw [hlast_eq]
            exact ih hch.tail x hx2

/-- C1: in the from-scratch pass, each line of a recognized
definition-list block gets exactly one role: `definition` plus a
`marker` mark over its first 4 characters when its text starts with
the marker; else a `definition-list-item` line decoration when its
number is in the block's list-line set; else a `term` line decoration
when it is non-empty and at most 100 characters long; else nothing.
The filter collects every decoration anchored on the line. -/
theorem C1_role_assignment (doc : List LineIn) (i n : Nat)
    (hi : i < (decorateVisibleRangesFromScratch doc).lineBlocks.length)
    (hspec : ((decorateVisibleRangesFromScratch doc).lineBlocks.getD i default).special
      = false)
    (hmk : ((decorateVisibleRangesFromScratch doc).lineBlocks.getD i default).defMarkers
      ≠ [])
    (hext : inExtent (decorateVisibleRangesFromScratch doc).lineBlocks (doc.length + 1) i n) :
    (decorateVisibleRangesFromScratch doc).decorations.filter
        (fun d => d.dfrom == lineFrom (docTexts doc) n) =
      (if MARKERL.isPrefixOf (lineTextN (docTexts doc) n) then
         [⟨lineFrom (docTexts doc) n, lineFrom (docTexts doc) n, DEF_CLASS⟩,
          ⟨lineFrom (docTexts doc) n, lineFrom (docTexts doc) n + MARKER_LEN, MARKER_CLASS⟩]
       else if ((decorateVisibleRangesFromScratch doc).lineBlocks.getD i
           default).listLines.contains n then
         [⟨lineFrom (docTexts doc) n, lineFrom (docTexts doc) n, DD_LIST_CLASS⟩]
       else if 0 < (lineTextN (docTexts doc) n).length ∧
           (lineTextN (docTexts doc) n).length ≤ MAX_TERM_LEN then
         [⟨lineFrom (docTexts doc) n, lineFrom (docTexts doc) n, TERM_CLASS⟩]
       else []) := by
  simp only [decorateVisibleRangesFromScratch] at hi hspec hmk hext ⊢
  obtain ⟨hne, hch, hhd, hlast⟩ := scanRange_inv 1 doc
  have hlb : ∀ x ∈ flist (scanRange ⟨[], false⟩ 1 doc).blocks, 1 ≤ x := by
    intro x hx
    have := sorted_headD_le_mem _ hch x hx
    omega
  have hub : ∀ x ∈ flist (scanRange ⟨[], false⟩ 1 doc).blocks, x ≤ doc.length + 1 := by
    intro x hx
    have := sorted_mem_le_getLastD _ hch x hx
    omega
  have hend : doc.length + 1 ≤ (docTexts doc).length + 1 := by
    simp [docTexts]
  rw [decorate_filter_at (docTexts doc) _ _ _ _ hch hub hlb hend hi hspec hmk hext]
  simp only [decorateLine]

def docW1 : List LineIn := [mkNormal ("cryosphere"), mkNormal (":   the frozen part"),
  mkNormal ("ice shelf"), mkNormal (":   ice that has slid")]

/-- C1, witness: Scenario A — line 1 (`cryosphere`) of the single
recognized block is decorated as a term, and only as a term. -/
theorem C1_role_assignment_witness :
    (0 < (decorateVisibleRangesFromScratch docW1).lineBlocks.length ∧
     ((decorateVisibleRangesFromScratch docW1).lineBlocks.getD 0 default).special = false ∧
     ((decorateVisibleRangesFromScratch docW1).lineBlocks.getD 0 default).defMarkers ≠ [] ∧
     inExtent (decorateVisibleRangesFromScratch docW1).lineBlocks (docW1.length + 1) 0 1) ∧
    (decorateVisibleRangesFromScratch docW1).decorations.filter
        (fun d => d.dfrom == lineFrom (docTexts docW1) 1) =
      (if MARKERL.isPrefixOf (lineTextN (docTexts docW1) 1) then
         [⟨lineFrom (docTexts docW1) 1, lineFrom (docTexts docW1) 1, DEF_CLASS⟩,
          ⟨lineFrom (docTexts docW1) 1, lineFrom (docTexts docW1) 1 + MARKER_LEN,
           MARKER_CLASS⟩]
       else if ((decorateVisibleRangesFromScratch docW1).lineBlocks.getD 0
           default).listLines.contains 1 then
         [⟨lineFrom (docTexts docW1) 1, lineFrom (docTexts docW1) 1, DD_LIST_CLASS⟩]
       else if 0 < (lineTextN (docTexts docW1) 1).length ∧
           (lineTextN (docTexts docW1) 1).length ≤ MAX_TERM_LEN then
         [⟨lineFrom (docTexts docW1) 1, lineFrom (docTexts docW1) 1, TERM_CLASS⟩]
       else []) :=
  ⟨⟨by decide, by decide, by decide, by decide⟩,
    C1_role_assignment docW1 0 1 (by decide) (by decide) (by decide) (by decide)⟩

/-- C8, amended: it is the from-scratch (re)scan, not the incremental
patch, that demotes an over-length line: in a recognized block, a
non-marker, non-list line longer than 100 characters receives no
decoration at all, while a marker line of the same block receives its
`definition` + `marker` decorations unchanged. -/
theorem C8_rescan_demotion (doc : List LineIn) (i n m : Nat)
    (hi : i < (decorateVisibleRangesFromScratch doc).lineBlocks.length)
    (hspec : ((decorateVisibleRangesFromScratch doc).lineBlocks.getD i default).special
      = false)
    (hmk : ((decorateVisibleRangesFromScratch doc).lineBlocks.getD i default).defMarkers
      ≠ [])
    (hextn : inExtent (decorateVisibleRangesFromScratch doc).lineBlocks (doc.length + 1) i n)
    (hextm : inExtent (decorateVisibleRangesFromScratch doc).lineBlocks (doc.length + 1) i m)
    (_hnm : n < m)
    (hlong : MAX_TERM_LEN < (lineTextN (docTexts doc) n).length)
    (hnotmk : MARKERL.isPrefixOf (lineTextN (docTexts doc) n) = false)
    (hnotli : ((decorateVisibleRangesFromScratch doc).lineBlocks.getD i
      default).listLines.contains n = false)
    (hmmk : MARKERL.isPrefixOf (lineTextN (docTexts doc) m) = true) :
    (decorateVisibleRangesFromScratch doc).decorations.filter
        (fun d => d.dfrom == lineFrom (docTexts doc) n) = [] ∧
    (decorateVisibleRangesFromScratch doc).decorations.filter
        (fun d => d.dfrom == lineFrom (docTexts doc) m) =
      [⟨lineFrom (docTexts doc) m, lineFrom (docTexts doc) m, DEF_CLASS⟩,
       ⟨lineFrom (docTexts doc) m, lineFrom (docTexts doc) m + MARKER_LEN, MARKER_CLASS⟩] := by
  simp only [decorateVisibleRangesFromScratch] at hi hspec hmk hextn hextm hnotli ⊢
  obtain ⟨hne, hch, hhd, hlast⟩ := scanRange_inv 1 doc
  have hlb : ∀ x ∈ flist (scanRange ⟨[], false⟩ 1 doc).blocks, 1 ≤ x := by
    intro x hx
    have := sorted_headD_le_mem _ hch x hx
    omega
  have hub : ∀ x ∈ flist (scanRange ⟨[], false⟩ 1 doc).blocks, x ≤ doc.length + 1 := by
    intro x hx
    have := sorted_mem_le_getLastD _ hch x hx
    omega
  have hend : doc.length + 1 ≤ (docTexts doc).length + 1 := by
    simp [docTexts]
  constructor
  · rw [decorate_filter_at (docTexts doc) _ _ _ _ hch hub hlb hend hi hspec hmk hextn]
    simp only [decorateLine, hnotmk, hnotli, Bool.false_eq_true, if_false]
    rw [if_neg (by omega)]
  · rw [decorate_filter_at (docTexts doc) _ _ _ _ hch hub hlb hend hi hspec hmk hextm]
    simp only [decorateLine]
    rw [if_pos hmmk]

def docW8c : List LineIn :=
  [⟨some LType.normal, ("term").data ++ List.replicate 101 'a'⟩, mkNormal (":   def")]

/-- C8, witness for the amended theorem: rescanning the document whose
first line has grown to 105 characters leaves line 1 undecorated and
line 2 decorated as definition-text. -/
theorem C8_rescan_demotion_witness :
    (0 < (decorateVisibleRangesFromScratch docW8c).lineBlocks.length ∧
     ((decorateVisibleRangesFromScratch docW8c).lineBlocks.getD 0 default).special = false ∧
     ((decorateVisibleRangesFromScratch docW8c).lineBlocks.getD 0 default).defMarkers ≠ [] ∧
     inExtent (decorateVisibleRangesFromScratch docW8c).lineBlocks (docW8c.length + 1) 0 1 ∧
     inExtent (decorateVisibleRangesFromScratch docW8c).lineBlocks (docW8c.length + 1) 0 2 ∧
     (1 : Nat) < 2 ∧
     MAX_TERM_LEN < (lineTextN (docTexts docW8c) 1).length ∧
     MARKERL.isPrefixOf (lineTextN (docTexts docW8c) 1) = false ∧
     ((decorateVisibleRangesFromScratch docW8c).lineBlocks.getD 0
       default).listLines.contains 1 = false ∧
     MARKERL.isPrefixOf (lineTextN (docTexts docW8c) 2) = true) ∧
    ((decorateVisibleRangesFromScratch docW8c).decorations.filter
        (fun d => d.dfrom == lineFrom (docTexts docW8c) 1) = [] ∧
     (decorateVisibleRangesFromScratch docW8c).decorations.filter
        (fun d => d.dfrom == lineFrom (docTexts docW8c) 2) =
      [⟨lineFrom (docTexts docW8c) 2, lineFrom (docTexts docW8c) 2, DEF_CLASS⟩,
       ⟨lineFrom (docTexts docW8c) 2, lineFrom (docTexts docW8c) 2 + MARKER_LEN,
        MARKER_CLASS⟩]) :=
  ⟨⟨by decide, by decide, by decide, by decide, by decide, by decide, by decide, by decide,
    by decide, by decide⟩,
   C8_rescan_demotion docW8c 0 1 2 (by decide) (by decide) (by decide) (by decide)
     (by decide) (by decide) (by decide) (by decide) (by decide) (by decide)⟩
